import Mathlib

/-!
Shallow embedding of the PoRC circuit construction
(`src/storage-proofs/src/circuit/porc.rs`) and of the sloth encode/decode
primitive (`src/storage-proofs/src/crypto/sloth.rs`).

The underlying field is the BLS12-381 scalar field `Fr`, embedded as
`ZMod frModulus`.  The bellman constraint-system collaborator is embedded as
an explicit state (`CSState`) recording, in emission order, the witness
allocations, the declared public inputs (excluding the constant `ONE` input),
and the emitted rank-1 constraints.  Each constraint is recorded already
evaluated at the assignment, as a triple `(a, b, c)` whose satisfaction means
`a * b = c`; external gadget-internal constraints and allocations (the bit
decompositions' internal booleans and the Pedersen hash internals, both
consumed as opaque collaborators) are not recorded.  The Pedersen hash gadget
is an abstract parameter `hash : Nat -> List Bool -> Fr` mapping the
personalization tag (the tree level) and the preimage bits to the x-coordinate
of the hash point.  Fallible synthesis returns `Except SynthErr CSState`,
where `SynthErr.assignmentMissing` embeds bellman's
`SynthesisError::AssignmentMissing` and `SynthErr.panicked` embeds a Rust
`assert_eq!` panic (which in Rust is not a returned error at all).
-/

/-- The modulus of the BLS12-381 scalar field `Fr` (the prime `r`). -/
def frModulus : Nat :=
  52435875175126190479447740508185965837690552500527637822603658699938581184513

/-- The scalar field of BLS12-381, over which the PoRC circuit works. -/
abbrev Fr : Type := ZMod frModulus

/-- The field value of an allocated boolean (`AllocatedBit`): `1` for `true`,
`0` for `false`. -/
def bitToFr (b : Bool) : Fr := if b then 1 else 0

/-- Number of bits of `Fr` (`Fr::NUM_BITS`), the length of the little-endian
bit decomposition produced by `AllocatedNum::into_bits_le`. -/
def frNumBits : Nat := 255

/-- Capacity of `Fr` (`Fr::CAPACITY = 254`), the chunk size used by
`multipack::compute_multipacking` and `multipack::pack_into_inputs`. -/
def frCapacity : Nat := 254

/-- Little-endian bit decomposition of a field element into `frNumBits` bits,
embedding `AllocatedNum::into_bits_le` at the value level. -/
def frBits (x : Fr) : List Bool :=
  (List.range frNumBits).map (fun i => Nat.testBit x.val i)

/-- An emitted rank-1 constraint, evaluated at the current assignment:
`(a, b, c)` is satisfied when `a * b = c`. -/
abbrev Triple : Type := Fr × Fr × Fr

/-- The booleanity constraint emitted by `AllocatedBit::alloc`:
`(1 - bit) * bit = 0`, evaluated at the assignment. -/
def boolConstraint (b : Bool) : Triple := (1 - bitToFr b, bitToFr b, 0)

/-- Modelled from the spec: `constraint::equal` (from
`src/circuit/constraint.rs`, a file of this repository not included under
`src/`) enforces equality between the final ascended value and the witnessed
commitment value via a single equality constraint; here recorded as the
evaluated triple `(a, 1, b)`, satisfied when `a = b`. -/
def constraintEqual (a b : Fr) : Triple := (a, 1, b)

/-- Auxiliary for `chunksOf`: `chunksGo n rest m acc` holds the current chunk
`acc` (reversed) with remaining capacity `m`, mirroring the successive
`slice::chunks` traversal used by the multipacking routines. -/
def chunksGo {α : Type} (n : Nat) : List α → Nat → List α → List (List α)
  | [], _, acc => [acc.reverse]
  | x :: xs, 0, acc => acc.reverse :: chunksGo n xs (n - 1) [x]
  | x :: xs, m + 1, acc => chunksGo n xs m (x :: acc)

/-- Split a list into successive chunks of size `n` (the last chunk possibly
shorter), mirroring Rust's `slice::chunks(n)` for `n > 0`: the empty slice
yields no chunks. -/
def chunksOf {α : Type} (n : Nat) (l : List α) : List (List α) :=
  match l with
  | [] => []
  | x :: xs => chunksGo n xs (n - 1) [x]

/-- Pack a little-endian list of bits into one field element:
bit `i` contributes `2 ^ i`, exactly as the `coeff` doubling loop of
`multipack::compute_multipacking` does within one chunk. -/
def packBits (bits : List Bool) : Fr :=
  bits.foldr (fun b acc => (if b then 1 else 0) + 2 * acc) 0

/-- Embedding of `multipack::compute_multipacking`: split the bits into
chunks of `Fr::CAPACITY` bits and pack each chunk into a field element. -/
def computeMultipacking (bits : List Bool) : List Fr :=
  (chunksOf frCapacity bits).map packBits

/-- Outcomes of a failed synthesis.  `assignmentMissing` embeds bellman's
`SynthesisError::AssignmentMissing`; `panicked` embeds a Rust `assert_eq!`
panic, which in the source is not a returned `SynthesisError` at all. -/
inductive SynthErr : Type
  | assignmentMissing : SynthErr
  | panicked : SynthErr

deriving instance DecidableEq for SynthErr

/-- The observable state of the constraint system after synthesis: witness
allocations (`aux`), declared public inputs (`inputs`, excluding the
constant `ONE` input that the test harness counts as input number one), and
the emitted constraints, each evaluated at the assignment. -/
structure CSState : Type where
  aux : List Fr
  inputs : List Fr
  constraints : List Triple

deriving instance DecidableEq for CSState

/-- Concatenation of two constraint-system states, in emission order. -/
def CSState.append (s t : CSState) : CSState :=
  ⟨s.aux ++ t.aux, s.inputs ++ t.inputs, s.constraints ++ t.constraints⟩

/-- The constraint system is satisfied by its assignment when every recorded
evaluated constraint `(a, b, c)` has `a * b = c`. -/
def CSState.satisfied (s : CSState) : Prop :=
  ∀ t ∈ s.constraints, t.1 * t.2.1 = t.2.2

instance (s : CSState) : Decidable s.satisfied :=
  inferInstanceAs (Decidable (∀ t ∈ s.constraints, t.1 * t.2.1 = t.2.2))

/-- Embedding of `AllocatedNum::alloc` with an optional witness value: a
missing value is bellman's `AssignmentMissing` synthesis error. -/
def allocNum : Option Fr → Except SynthErr Fr
  | some v => .ok v
  | none => .error .assignmentMissing

/-- Embedding of `AllocatedBit::alloc` with an optional witness value: a
missing value is bellman's `AssignmentMissing` synthesis error. -/
def allocBit : Option Bool → Except SynthErr Bool
  | some b => .ok b
  | none => .error .assignmentMissing

/-- Embedding of `AllocatedNum::conditionally_reverse`: returns the pair
`(xl, xr)` — swapped when the condition bit is set — together with the two
emitted reversal constraints `(a - b) * cond = a - xl` and
`(b - a) * cond = b - xr`, evaluated at the assignment. -/
def conditionallyReverse (a b : Fr) (bit : Bool) : (Fr × Fr) × List Triple :=
  let c := bitToFr bit
  let xl := if bit then b else a
  let xr := if bit then a else b
  ((xl, xr), [(a - b, c, a - xl), (b - a, c, b - xr)])

/-- Embedding of the per-challenge authentication-path loop of
`PoRCCircuit::synthesize` (`for (i, e) in path.iter().enumerate()`), starting
at level `i` with current value `cur`.  Per level it allocates the position
bit and the path element, conditionally reverses the preimage, hashes the bit
decompositions with the level index as personalization, and records the
direction bit.  Returns the final current value, the recorded direction bits,
the witness allocations and the emitted constraints, in order. -/
def synthPath (hash : Nat → List Bool → Fr) (i : Nat) (cur : Fr) :
    List (Option (Fr × Bool)) → Except SynthErr (Fr × List Bool × List Fr × List Triple)
  | [] => .ok (cur, [], [], [])
  | e :: rest =>
    match allocBit (e.map Prod.snd) with
    | .error err => .error err
    | .ok b =>
      match allocNum (e.map Prod.fst) with
      | .error err => .error err
      | .ok pathElement =>
        let rev := conditionallyReverse cur pathElement b
        let xl := rev.1.1
        let xr := rev.1.2
        let cur2 := hash i (frBits xl ++ frBits xr)
        match synthPath hash (i + 1) cur2 rest with
        | .error err => .error err
        | .ok (curFinal, bits, aux, cons) =>
          .ok (curFinal, b :: bits,
               bitToFr b :: pathElement :: xl :: xr :: aux,
               boolConstraint b :: rev.2 ++ cons)

/-- Embedding of one iteration of the challenge loop of
`PoRCCircuit::synthesize`: allocate the commitment, allocate the leaf, ascend
the authentication path, pack the direction bits into public inputs
(`multipack::pack_into_inputs`, one trivially-satisfied packing constraint
per declared chunk), enforce that the computed root equals the commitment
(`constraint::equal`), and expose the commitment as a public input
(`inputize`, whose equality constraint is likewise satisfied by
construction). -/
def synthChallenge (hash : Nat → List Bool → Fr) (challenged_leaf : Option Fr)
    (path : List (Option (Fr × Bool))) (commitment : Option Fr) :
    Except SynthErr CSState :=
  match allocNum commitment with
  | .error err => .error err
  | .ok rt =>
    match allocNum challenged_leaf with
    | .error err => .error err
    | .ok leaf =>
      match synthPath hash 0 leaf path with
      | .error err => .error err
      | .ok (cur, bits, pathAux, pathCons) =>
        let packed := computeMultipacking bits
        .ok ⟨rt :: leaf :: pathAux,
             packed ++ [rt],
             pathCons ++ packed.map (fun v => (v, 1, v))
               ++ [constraintEqual cur rt, (rt, 1, rt)]⟩

/-- Embedding of the challenge loop of `PoRCCircuit::synthesize` over the
zipped sequence `(challenged_leaf, (path, commitment))`, accumulating the
per-challenge states in order. -/
def synthChallenges (hash : Nat → List Bool → Fr) :
    List (Option Fr × List (Option (Fr × Bool)) × Option Fr) →
    Except SynthErr CSState
  | [] => .ok ⟨[], [], []⟩
  | (challenged_leaf, path, commitment) :: rest =>
    match synthChallenge hash challenged_leaf path commitment with
    | .error err => .error err
    | .ok s =>
      match synthChallenges hash rest with
      | .error err => .error err
      | .ok t => .ok (s.append t)

/-- Embedding of `PoRCCircuit::synthesize`.  The two leading `assert_eq!`
length checks are Rust panics (`SynthErr.panicked`), not synthesis errors;
they run before any constraint is emitted.  After them the three sequences
are zipped exactly as `challenged_leafs.iter().zip(paths.iter().zip(commitments))`. -/
def synthesize (hash : Nat → List Bool → Fr) (challenged_leafs : List (Option Fr))
    (commitments : List (Option Fr)) (paths : List (List (Option (Fr × Bool)))) :
    Except SynthErr CSState :=
  if challenged_leafs.length = paths.length then
    if paths.length = commitments.length then
      synthChallenges hash (challenged_leafs.zip (paths.zip commitments))
    else .error .panicked
  else .error .panicked

/-- Value-level Merkle ascent from level `i`: at each level the current value
and the sibling are conditionally swapped by the direction bit and hashed
with the level index as personalization tag, exactly as the circuit computes
with a full witness. -/
def ascendFrom (hash : Nat → List Bool → Fr) (i : Nat) (cur : Fr) :
    List (Fr × Bool) → Fr
  | [] => cur
  | (sib, b) :: rest =>
    ascendFrom hash (i + 1)
      (hash i (frBits (if b then sib else cur) ++ frBits (if b then cur else sib))) rest

/-- Value-level recomputation of the Merkle root from a leaf along an
authentication path, starting at level `0`. -/
def merkleAscend (hash : Nat → List Bool → Fr) (leaf : Fr)
    (path : List (Fr × Bool)) : Fr :=
  ascendFrom hash 0 leaf path

/-- Embedding of `PoRCCompound::generate_public_inputs`.  The challenge
derivation (`fr_into_bytes` composed with `slice_mod`, and
`challenge_into_auth_path_bits`) is consumed as an opaque external
collaborator, so it appears as the abstract parameters `slice_mod` (field
element and leaf count to challenged leaf index) and
`challenge_into_auth_path_bits` (leaf index and leaf count to direction
bits).  The imperative `inputs.extend(..); inputs.push(..)` loop over
`challenges.iter().zip(commitments)` is embedded as a left fold. -/
def generate_public_inputs (slice_mod : Fr → Nat → Nat)
    (challenge_into_auth_path_bits : Nat → Nat → List Bool)
    (challenges commitments : List Fr) (leaves : Nat) : List Fr :=
  (challenges.zip commitments).foldl
    (fun inputs cc =>
      inputs
        ++ computeMultipacking
             (challenge_into_auth_path_bits (slice_mod cc.1 leaves) leaves)
        ++ [cc.2])
    []

namespace sloth

/-- Embedding of `sloth::encode`: additive masking `plaintext + key`. -/
def encode (key plaintext : Fr) : Fr := plaintext + key

/-- Embedding of `sloth::decode`: `ciphertext - key`. -/
def decode (key ciphertext : Fr) : Fr := ciphertext - key

end sloth

deriving instance DecidableEq for Except

/-! ### Helper lemmas -/

/-- Unfolding the imperative accumulation of `generate_public_inputs`. -/
theorem generate_foldl (slice_mod : Fr → Nat → Nat)
    (cb : Nat → Nat → List Bool) (leaves : Nat) (l : List (Fr × Fr)) :
    ∀ acc : List Fr,
      l.foldl
        (fun inputs cc =>
          inputs ++ computeMultipacking (cb (slice_mod cc.1 leaves) leaves) ++ [cc.2])
        acc =
      acc ++ l.flatMap
        (fun cc => computeMultipacking (cb (slice_mod cc.1 leaves) leaves) ++ [cc.2]) := by
  induction l with
  | nil => intro acc; simp
  | cons cc l ih =>
    intro acc
    simp only [List.foldl_cons, List.flatMap_cons]
    rw [ih]
    simp [List.append_assoc]

/-- The public input vector is the concatenation of one segment per
challenge/commitment pair. -/
theorem generate_public_inputs_eq (slice_mod : Fr → Nat → Nat)
    (cb : Nat → Nat → List Bool) (challenges commitments : List Fr) (leaves : Nat) :
    generate_public_inputs slice_mod cb challenges commitments leaves =
      (challenges.zip commitments).flatMap
        (fun cc => computeMultipacking (cb (slice_mod cc.1 leaves) leaves) ++ [cc.2]) := by
  unfold generate_public_inputs
  rw [generate_foldl]
  simp

/-- Cons step of the public input vector. -/
theorem generate_public_inputs_cons (slice_mod : Fr → Nat → Nat)
    (cb : Nat → Nat → List Bool) (ch c : Fr) (challenges commitments : List Fr)
    (leaves : Nat) :
    generate_public_inputs slice_mod cb (ch :: challenges) (c :: commitments) leaves =
      computeMultipacking (cb (slice_mod ch leaves) leaves) ++ [c]
        ++ generate_public_inputs slice_mod cb challenges commitments leaves := by
  rw [generate_public_inputs_eq, generate_public_inputs_eq]
  simp [List.append_assoc]

/-- A chunk accumulator with enough remaining capacity swallows the rest of
the list into a single chunk. -/
theorem chunksGo_of_length_le {α : Type} (n : Nat) :
    ∀ (xs : List α) (m : Nat) (acc : List α), xs.length ≤ m →
      chunksGo n xs m acc = [acc.reverse ++ xs] := by
  intro xs
  induction xs with
  | nil => intro m acc _; simp [chunksGo]
  | cons x xs ih =>
    intro m acc h
    match m with
    | 0 => simp at h
    | m + 1 =>
      simp only [chunksGo]
      rw [ih m (x :: acc) (by simp at h; omega)]
      simp

/-- A nonempty list of at most `n` elements forms a single chunk. -/
theorem chunksOf_eq_single {α : Type} (n : Nat) (l : List α) (h0 : l ≠ [])
    (h : l.length ≤ n) : chunksOf n l = [l] := by
  match l with
  | [] => exact absurd rfl h0
  | x :: xs =>
    simp only [chunksOf]
    rw [chunksGo_of_length_le n xs (n - 1) [x] (by simp at h; omega)]
    simp

/-- A nonempty bit list of at most `frCapacity` bits packs into exactly one
field element. -/
theorem computeMultipacking_single (bits : List Bool) (h0 : bits ≠ [])
    (h : bits.length ≤ frCapacity) : computeMultipacking bits = [packBits bits] := by
  unfold computeMultipacking
  rw [chunksOf_eq_single frCapacity bits h0 h]
  simp

/-- Satisfaction distributes over concatenation of constraint-system states. -/
theorem CSState.satisfied_append (s t : CSState) :
    (s.append t).satisfied ↔ s.satisfied ∧ t.satisfied := by
  constructor
  · intro h
    exact ⟨fun t' ht' => h t' (by simp [CSState.append, ht']),
           fun t' ht' => h t' (by simp [CSState.append, ht'])⟩
  · intro h t' ht'
    rcases List.mem_append.mp ht' with h' | h'
    · exact h.1 t' h'
    · exact h.2 t' h'

/-- With a fully-present witness, the authentication-path loop succeeds, its
final value is the value-level Merkle ascent, the recorded direction bits are
the path's bits in order, and every emitted constraint is satisfied. -/
theorem synthPath_full (hash : Nat → List Bool → Fr) :
    ∀ (p : List (Fr × Bool)) (i : Nat) (cur : Fr),
      ∃ aux cons,
        synthPath hash i cur (p.map some) =
          .ok (ascendFrom hash i cur p, p.map Prod.snd, aux, cons) ∧
        ∀ t ∈ cons, t.1 * t.2.1 = t.2.2 := by
  intro p
  induction p with
  | nil => intro i cur; exact ⟨[], [], rfl, by simp⟩
  | cons e p ih =>
    intro i cur
    obtain ⟨sib, b⟩ := e
    obtain ⟨aux, cons, heq, hsat⟩ :=
      ih (i + 1) (hash i (frBits (if b then sib else cur) ++ frBits (if b then cur else sib)))
    refine ⟨bitToFr b :: sib :: (if b then sib else cur) :: (if b then cur else sib) :: aux,
      boolConstraint b
        :: [(cur - sib, bitToFr b, cur - (if b then sib else cur)),
            (sib - cur, bitToFr b, sib - (if b then cur else sib))] ++ cons, ?_, ?_⟩
    · simp only [List.map_cons, synthPath, allocBit, allocNum, Option.map_some',
        conditionallyReverse]
      rw [heq]
      rfl
    · intro t ht
      simp only [List.cons_append, List.mem_cons] at ht
      rcases ht with ht | ht | ht | ht
      · subst ht; cases b <;> simp [boolConstraint, bitToFr]
      · subst ht; cases b <;> simp [bitToFr]
      · subst ht; cases b <;> simp [bitToFr]
      · exact hsat t ht

/-- A missing entry anywhere in the path produces the distinguished
`AssignmentMissing` synthesis error. -/
theorem synthPath_missing (hash : Nat → List Bool → Fr) :
    ∀ (path : List (Option (Fr × Bool))) (i : Nat) (cur : Fr),
      (∃ e ∈ path, e = none) →
      synthPath hash i cur path = .error .assignmentMissing := by
  intro path
  induction path with
  | nil => intro i cur h; simp at h
  | cons e rest ih =>
    intro i cur h
    match e with
    | none => simp [synthPath, allocBit]
    | some (sib, b) =>
      have hrest : ∃ e ∈ rest, e = none := by
        rcases h with ⟨x, hx, hnone⟩
        rcases List.mem_cons.mp hx with h' | h'
        · rw [h'] at hnone; simp at hnone
        · exact ⟨x, h', hnone⟩
      simp only [synthPath, allocBit, allocNum, Option.map_some']
      rw [ih _ _ hrest]

/-- A list of options with no missing entry is a list of present values. -/
theorem eq_map_some_of_forall_ne_none {α : Type} :
    ∀ (l : List (Option α)), (∀ e ∈ l, e ≠ none) →
      ∃ l' : List α, l = List.map some l' := by
  intro l
  induction l with
  | nil => intro _; exact ⟨[], rfl⟩
  | cons o l ih =>
    intro h
    obtain ⟨l', hl'⟩ := ih (fun e he => h e (List.mem_cons_of_mem o he))
    match o, h o (List.mem_cons_self o l) with
    | some a, _ => exact ⟨a :: l', by simp [hl']⟩

/-- With a fully-present witness, one challenge synthesizes successfully: it
allocates the commitment then the leaf, declares the packed direction bits
followed by the commitment as public inputs, and — when the witness is
authentic, i.e. the Merkle ascent of the leaf along the path reaches the
commitment — every emitted constraint is satisfied. -/
theorem synthChallenge_full (hash : Nat → List Bool → Fr) (leaf c : Fr)
    (p : List (Fr × Bool)) :
    ∃ pathAux cons,
      synthChallenge hash (some leaf) (p.map some) (some c) =
        .ok ⟨c :: leaf :: pathAux,
             computeMultipacking (p.map Prod.snd) ++ [c],
             cons⟩ ∧
      (merkleAscend hash leaf p = c → ∀ t ∈ cons, t.1 * t.2.1 = t.2.2) := by
  obtain ⟨aux, cons0, heq, hsat⟩ := synthPath_full hash p 0 leaf
  refine ⟨aux,
    cons0 ++ (computeMultipacking (p.map Prod.snd)).map (fun v => (v, 1, v))
      ++ [constraintEqual (ascendFrom hash 0 leaf p) c, (c, 1, c)], ?_, ?_⟩
  · simp only [synthChallenge, allocNum]
    rw [heq]
  · intro hroot t ht
    rcases List.mem_append.mp ht with ht | ht
    · rcases List.mem_append.mp ht with ht | ht
      · exact hsat t ht
      · obtain ⟨v, _, hv⟩ := List.mem_map.mp ht
        rw [← hv]
        simp
    · simp only [List.mem_cons, List.not_mem_nil, or_false] at ht
      rcases ht with ht | ht
      · subst ht
        simp only [constraintEqual]
        rw [show ascendFrom hash 0 leaf p = c from hroot]
        simp
      · subst ht; simp

/-- A missing leaf, commitment or path entry makes the challenge synthesis
return the `AssignmentMissing` error. -/
theorem synthChallenge_missing (hash : Nat → List Bool → Fr)
    (challenged_leaf commitment : Option Fr) (path : List (Option (Fr × Bool)))
    (h : challenged_leaf = none ∨ commitment = none ∨ ∃ e ∈ path, e = none) :
    synthChallenge hash challenged_leaf path commitment = .error .assignmentMissing := by
  match commitment with
  | none => simp [synthChallenge, allocNum]
  | some c =>
    match challenged_leaf with
    | none => simp [synthChallenge, allocNum]
    | some leaf =>
      have hpath : ∃ e ∈ path, e = none := by
        rcases h with h | h | h
        · simp at h
        · simp at h
        · exact h
      simp only [synthChallenge, allocNum]
      rw [synthPath_missing hash path 0 leaf hpath]

/-- A fully-present challenge synthesizes successfully. -/
theorem synthChallenge_ok (hash : Nat → List Bool → Fr)
    (challenged_leaf commitment : Option Fr) (path : List (Option (Fr × Bool)))
    (h1 : challenged_leaf ≠ none) (h2 : commitment ≠ none)
    (h3 : ∀ e ∈ path, e ≠ none) :
    ∃ s, synthChallenge hash challenged_leaf path commitment = .ok s := by
  obtain ⟨l, hl⟩ := Option.ne_none_iff_exists.mp h1
  obtain ⟨c, hc⟩ := Option.ne_none_iff_exists.mp h2
  obtain ⟨p, hp⟩ := eq_map_some_of_forall_ne_none path h3
  obtain ⟨pathAux, cons, heq, _⟩ := synthChallenge_full hash l c p
  subst hp
  exact ⟨_, by rw [← hl, ← hc]; exact heq⟩

/-- With equal-length sequences, a missing witness value anywhere makes the
challenge loop return the `AssignmentMissing` error: earlier fully-present
challenges succeed and the first demanded missing value aborts synthesis. -/
theorem synthChallenges_zip_missing (hash : Nat → List Bool → Fr) :
    ∀ (ls : List (Option Fr)) (cs : List (Option Fr))
      (ps : List (List (Option (Fr × Bool)))),
      ls.length = ps.length → ps.length = cs.length →
      ((∃ x ∈ ls, x = none) ∨ (∃ x ∈ cs, x = none) ∨ ∃ p ∈ ps, ∃ e ∈ p, e = none) →
      synthChallenges hash (ls.zip (ps.zip cs)) = .error .assignmentMissing := by
  intro ls
  induction ls with
  | nil =>
    intro cs ps h1 h2 hmiss
    simp only [List.length_nil] at h1
    have hps : ps = [] := List.length_eq_zero.mp h1.symm
    subst hps
    simp only [List.length_nil] at h2
    have hcs : cs = [] := List.length_eq_zero.mp h2.symm
    subst hcs
    simp at hmiss
  | cons l ls ih =>
    intro cs ps h1 h2 hmiss
    match ps, cs with
    | p :: ps, c :: cs =>
      have hz : (l :: ls).zip ((p :: ps).zip (c :: cs)) =
          (l, p, c) :: ls.zip (ps.zip cs) := rfl
      rw [hz]
      simp only [synthChallenges]
      by_cases hbad : l = none ∨ c = none ∨ ∃ e ∈ p, e = none
      · rw [synthChallenge_missing hash l c p hbad]
      · push_neg at hbad
        obtain ⟨hl, hc, hp⟩ := hbad
        obtain ⟨s, hs⟩ := synthChallenge_ok hash l c p hl hc hp
        rw [hs]
        have hmiss' : (∃ x ∈ ls, x = none) ∨ (∃ x ∈ cs, x = none) ∨
            ∃ q ∈ ps, ∃ e ∈ q, e = none := by
          rcases hmiss with ⟨x, hx, hxe⟩ | ⟨x, hx, hxe⟩ | ⟨q, hq, he⟩
          · rcases List.mem_cons.mp hx with h' | h'
            · exact absurd (h' ▸ hxe) hl
            · exact Or.inl ⟨x, h', hxe⟩
          · rcases List.mem_cons.mp hx with h' | h'
            · exact absurd (h' ▸ hxe) hc
            · exact Or.inr (Or.inl ⟨x, h', hxe⟩)
          · rcases List.mem_cons.mp hq with h' | h'
            · subst h'
              obtain ⟨e, he1, he2⟩ := he
              exact absurd he2 (hp e he1)
            · exact Or.inr (Or.inr ⟨q, h', he⟩)
        rw [ih cs ps (by simpa using h1) (by simpa using h2) hmiss']

/-- C1: for every instance with a correct witness — for each challenge an
authentic leaf and path (the Merkle ascent of the leaf along the path reaches
the commitment) whose direction bits are the ones derived from the challenge —
the vector returned by `generate_public_inputs` on the public data
(challenges, commitments, leaf count) is identical, in length, content and
order, to the sequence of public inputs `synthesize` declares, and the
resulting constraint system is satisfied. -/
theorem porc_circuit_matches_public_inputs
    (hash : Nat → List Bool → Fr) (slice_mod : Fr → Nat → Nat)
    (challenge_into_auth_path_bits : Nat → Nat → List Bool) (leaves : Nat)
    (challenges commitments challenged_leafs : List Fr)
    (paths : List (List (Fr × Bool)))
    (hlen1 : challenged_leafs.length = paths.length)
    (hlen2 : paths.length = commitments.length)
    (hroot : List.Forall₂ (fun lp cm => merkleAscend hash lp.1 lp.2 = cm)
      (challenged_leafs.zip paths) commitments)
    (hbits : List.Forall₂
      (fun ch pth => pth.map Prod.snd =
        challenge_into_auth_path_bits (slice_mod ch leaves) leaves)
      challenges paths) :
    ∃ s, synthesize hash (challenged_leafs.map some) (commitments.map some)
        (paths.map (List.map some)) = .ok s ∧
      s.satisfied ∧
      s.inputs = generate_public_inputs slice_mod challenge_into_auth_path_bits
        challenges commitments leaves := by
  induction hbits generalizing challenged_leafs commitments with
  | nil =>
    simp only [List.length_nil] at hlen1 hlen2
    have hlf : challenged_leafs = [] := List.length_eq_zero.mp hlen1
    have hcm : commitments = [] := List.length_eq_zero.mp hlen2.symm
    subst hlf; subst hcm
    refine ⟨⟨[], [], []⟩, ?_, ?_, ?_⟩
    · simp [synthesize, synthChallenges]
    · intro t ht; simp [CSState.satisfied] at ht
    · simp [generate_public_inputs]
  | @cons ch pth chs pths hrel hrest ih =>
    match challenged_leafs, hlen1 with
    | lf :: lfs, hlen1 =>
      match commitments, hlen2 with
      | cm :: cms, hlen2 =>
        simp only [List.length_cons, Nat.succ.injEq] at hlen1 hlen2
        have hzip : (lf :: lfs).zip (pth :: pths) = (lf, pth) :: lfs.zip pths := rfl
        rw [hzip] at hroot
        cases hroot with
        | cons hr hroot =>
          obtain ⟨t, hteq, htsat, htinp⟩ := ih cms lfs hlen1 hlen2 hroot
          simp only [synthesize, List.length_map, hlen1, hlen2, if_true, eq_self_iff_true] at hteq
          obtain ⟨pathAux, cons1, hceq, hcsat⟩ := synthChallenge_full hash lf cm pth
          have hs1sat : ∀ u ∈ cons1, u.1 * u.2.1 = u.2.2 := hcsat hr
          refine ⟨CSState.append
            ⟨cm :: lf :: pathAux, computeMultipacking (pth.map Prod.snd) ++ [cm], cons1⟩ t,
            ?_, ?_, ?_⟩
          · have hz2 : ((lf :: lfs).map some).zip
                (((pth :: pths).map (List.map some)).zip ((cm :: cms).map some)) =
                (some lf, pth.map some, some cm)
                  :: (lfs.map some).zip ((pths.map (List.map some)).zip (cms.map some)) := rfl
            simp only [synthesize, List.length_map, List.length_cons, hlen1, hlen2,
              if_true, eq_self_iff_true]
            rw [hz2]
            simp only [synthChallenges]
            rw [hceq, hteq]
          · rw [CSState.satisfied_append]
            exact ⟨hs1sat, htsat⟩
          · simp only [CSState.append]
            rw [htinp, generate_public_inputs_cons, hrel]

/-- Witness for C1: a one-challenge, depth-1 instance with constant-zero hash
and matching commitment. -/
theorem porc_circuit_matches_public_inputs_witness :
    ∃ s, synthesize (fun _ _ => (0 : Fr)) ([(5 : Fr)].map some) ([(0 : Fr)].map some)
        ([[((7 : Fr), false)]].map (List.map some)) = .ok s ∧
      s.satisfied ∧
      s.inputs = generate_public_inputs (fun _ _ => 0) (fun _ _ => [false])
        [(3 : Fr)] [(0 : Fr)] 2 :=
  porc_circuit_matches_public_inputs (fun _ _ => (0 : Fr)) (fun _ _ => 0)
    (fun _ _ => [false]) 2 [(3 : Fr)] [(0 : Fr)] [(5 : Fr)] [[((7 : Fr), false)]]
    (by decide) (by decide)
    (List.Forall₂.cons (by decide) List.Forall₂.nil)
    (List.Forall₂.cons (by decide) List.Forall₂.nil)

/-- C2 counterexample: with sequences of unequal lengths (one leaf and one
commitment but no path), the synthesis outcome is the embedded Rust
`assert_eq!` panic, not a circuit-construction (`SynthesisError`) value such
as the `AssignmentMissing` one — refuting the claim that a length mismatch is
signaled as a circuit-construction error rather than a panic. -/
theorem synthesize_length_mismatch_outcome :
    synthesize (fun _ _ => (0 : Fr)) [some (1 : Fr)] [some (1 : Fr)] [] =
      .error .panicked ∧ SynthErr.panicked ≠ SynthErr.assignmentMissing := by
  exact ⟨by decide, by decide⟩

/-- C2 as amended: when the challenged-leaf, path and commitment sequences
have unequal lengths, `synthesize` fails by panicking (the two `assert_eq!`
checks), before any constraint is emitted — it does not return a
`SynthesisError`. -/
theorem synthesize_length_mismatch_panics (hash : Nat → List Bool → Fr)
    (challenged_leafs commitments : List (Option Fr))
    (paths : List (List (Option (Fr × Bool))))
    (h : challenged_leafs.length ≠ paths.length ∨
      paths.length ≠ commitments.length) :
    synthesize hash challenged_leafs commitments paths = .error .panicked := by
  unfold synthesize
  rcases h with h | h
  · rw [if_neg h]
  · by_cases h1 : challenged_leafs.length = paths.length
    · rw [if_pos h1, if_neg h]
    · rw [if_neg h1]

/-- Witness for the amended C2: two leaves and commitments against a single
path. -/
theorem synthesize_length_mismatch_panics_witness :
    synthesize (fun _ _ => (0 : Fr)) [some (1 : Fr), some (2 : Fr)]
      [some (1 : Fr), some (2 : Fr)] [[]] = .error .panicked :=
  synthesize_length_mismatch_panics (fun _ _ => (0 : Fr))
    [some (1 : Fr), some (2 : Fr)] [some (1 : Fr), some (2 : Fr)] [[]]
    (Or.inl (by decide))

/-- C4: with equal-length sequences, if any leaf value, commitment, sibling
value or direction bit needed as a witness is absent (`none`) at synthesis
time, `synthesize` neither panics nor substitutes a default value: it returns
the distinguished `AssignmentMissing` synthesis error. -/
theorem synthesize_missing_witness_error (hash : Nat → List Bool → Fr)
    (challenged_leafs commitments : List (Option Fr))
    (paths : List (List (Option (Fr × Bool))))
    (h1 : challenged_leafs.length = paths.length)
    (h2 : paths.length = commitments.length)
    (hmiss : (∃ x ∈ challenged_leafs, x = none) ∨ (∃ x ∈ commitments, x = none)
      ∨ ∃ p ∈ paths, ∃ e ∈ p, e = none) :
    synthesize hash challenged_leafs commitments paths =
      .error .assignmentMissing := by
  unfold synthesize
  rw [if_pos h1, if_pos h2]
  exact synthChallenges_zip_missing hash challenged_leafs commitments paths h1 h2 hmiss

/-- Witness for C4: a single challenge whose leaf witness is absent. -/
theorem synthesize_missing_witness_error_witness :
    synthesize (fun _ _ => (0 : Fr)) [none] [some (0 : Fr)] [[]] =
      .error .assignmentMissing :=
  synthesize_missing_witness_error (fun _ _ => (0 : Fr)) [none] [some (0 : Fr)]
    [[]] (by decide) (by decide) (Or.inl ⟨none, by decide, rfl⟩)

/-- C5: the public input vector returned by `generate_public_inputs` is the
concatenation, in the instance's original challenge order, of one segment per
challenge: the packed encoding of that challenge's derived direction bits
followed by that challenge's commitment value. -/
theorem generate_public_inputs_segments (slice_mod : Fr → Nat → Nat)
    (challenge_into_auth_path_bits : Nat → Nat → List Bool)
    (challenges commitments : List Fr) (leaves : Nat) :
    generate_public_inputs slice_mod challenge_into_auth_path_bits
        challenges commitments leaves =
      (challenges.zip commitments).flatMap
        (fun cc =>
          computeMultipacking
            (challenge_into_auth_path_bits (slice_mod cc.1 leaves) leaves)
          ++ [cc.2]) :=
  generate_public_inputs_eq slice_mod challenge_into_auth_path_bits
    challenges commitments leaves

/-- C6: `conditionally_reverse` maps (current, sibling) to the hash preimage
pair (left, right): if the bit is false then left = current and right =
sibling, if the bit is true then left = sibling and right = current; and this
is enforced by the two emitted constraints, not by a host-language branch:
any pair of values satisfying the emitted constraint equations, with the
bit's field value, equals the pair the gadget returns. -/
theorem conditional_swap_constrained (a b : Fr) (bit : Bool) (xl xr c : Fr)
    (hc : c = bitToFr bit)
    (h1 : (a - b) * c = a - xl) (h2 : (b - a) * c = b - xr) :
    (conditionallyReverse a b bit).1 = (if bit then (b, a) else (a, b)) ∧
    (conditionallyReverse a b bit).2 =
      [(a - b, bitToFr bit, a - (conditionallyReverse a b bit).1.1),
       (b - a, bitToFr bit, b - (conditionallyReverse a b bit).1.2)] ∧
    xl = (conditionallyReverse a b bit).1.1 ∧
    xr = (conditionallyReverse a b bit).1.2 := by
  subst hc
  refine ⟨?_, rfl, ?_, ?_⟩
  · cases bit <;> rfl
  · rw [show (conditionallyReverse a b bit).1.1 = if bit then b else a from rfl]
    cases bit with
    | false =>
      rw [show bitToFr false = 0 from rfl] at h1
      show xl = a
      linear_combination h1
    | true =>
      rw [show bitToFr true = 1 from rfl] at h1
      show xl = b
      linear_combination h1
  · rw [show (conditionallyReverse a b bit).1.2 = if bit then a else b from rfl]
    cases bit with
    | false =>
      rw [show bitToFr false = 0 from rfl] at h2
      show xr = b
      linear_combination h2
    | true =>
      rw [show bitToFr true = 1 from rfl] at h2
      show xr = a
      linear_combination h2

/-- Witness for C6: concrete swap with the bit set. -/
theorem conditional_swap_constrained_witness :
    (conditionallyReverse (3 : Fr) 5 true).1 = (if true then ((5 : Fr), (3 : Fr)) else (3, 5)) ∧
    (conditionallyReverse (3 : Fr) 5 true).2 =
      [((3 : Fr) - 5, bitToFr true, 3 - (conditionallyReverse (3 : Fr) 5 true).1.1),
       ((5 : Fr) - 3, bitToFr true, 5 - (conditionallyReverse (3 : Fr) 5 true).1.2)] ∧
    (5 : Fr) = (conditionallyReverse (3 : Fr) 5 true).1.1 ∧
    (3 : Fr) = (conditionallyReverse (3 : Fr) 5 true).1.2 :=
  conditional_swap_constrained 3 5 true 5 3 1 (by decide) (by decide) (by decide)

/-- C7: at every level of a challenge's path the new current value is the
hash of the bit decompositions of left then right, with the level index `i`
as the personalization tag, and the next level uses tag `i + 1`; moreover
with a full witness the circuit's running value agrees with the value-level
ascent at every starting level. -/
theorem merkle_hash_level_personalization (hash : Nat → List Bool → Fr)
    (i : Nat) (cur sib : Fr) (b : Bool) (rest p : List (Fr × Bool)) :
    ascendFrom hash i cur ((sib, b) :: rest) =
      ascendFrom hash (i + 1)
        (hash i (frBits (if b then sib else cur) ++ frBits (if b then cur else sib)))
        rest ∧
    Except.map (fun r => r.1) (synthPath hash i cur (p.map some)) =
      .ok (ascendFrom hash i cur p) := by
  refine ⟨rfl, ?_⟩
  obtain ⟨aux, cons, heq, _⟩ := synthPath_full hash p i cur
  rw [heq]
  rfl

/-- C9: the sloth primitive is additive masking over the field: for every key
and plaintext, `encode key plaintext = plaintext + key`, `decode key
ciphertext = ciphertext - key`, hence decoding inverts encoding for all
inputs. -/
theorem sloth_additive_masking (key plaintext ciphertext : Fr) :
    sloth.encode key plaintext = plaintext + key ∧
    sloth.decode key ciphertext = ciphertext - key ∧
    sloth.decode key (sloth.encode key plaintext) = plaintext := by
  refine ⟨rfl, rfl, ?_⟩
  simp [sloth.encode, sloth.decode]

/-- Taking the first `min` elements of both lists before zipping changes
nothing: `zip` already truncates to the shorter list. -/
theorem zip_take_min {α β : Type} :
    ∀ (l1 : List α) (l2 : List β),
      (l1.take (min l1.length l2.length)).zip
        (l2.take (min l1.length l2.length)) = l1.zip l2 := by
  intro l1
  induction l1 with
  | nil => intro l2; simp
  | cons x xs ih =>
    intro l2
    match l2 with
    | [] => simp
    | y :: ys =>
      simp only [List.length_cons]
      rw [show min (xs.length + 1) (ys.length + 1) = min xs.length ys.length + 1
        from Nat.succ_min_succ xs.length ys.length]
      simp only [List.take_succ_cons, List.zip_cons_cons]
      rw [ih ys]

/-- C10: when the challenges and commitments lists have different lengths,
`generate_public_inputs` signals no error (it is total): it produces output
segments only for the first `min` pairs — the vector is unchanged if each
list is truncated to the common length, and the zipped pair list it iterates
over has exactly `min` entries. -/
theorem generate_public_inputs_truncates (slice_mod : Fr → Nat → Nat)
    (challenge_into_auth_path_bits : Nat → Nat → List Bool)
    (challenges commitments : List Fr) (leaves : Nat) :
    generate_public_inputs slice_mod challenge_into_auth_path_bits
        challenges commitments leaves =
      generate_public_inputs slice_mod challenge_into_auth_path_bits
        (challenges.take (min challenges.length commitments.length))
        (commitments.take (min challenges.length commitments.length)) leaves ∧
    (challenges.zip commitments).length =
      min challenges.length commitments.length := by
  constructor
  · rw [generate_public_inputs_eq, generate_public_inputs_eq, zip_take_min]
  · rw [List.length_zip]

/-- C3 counterexample: for a concrete 2-challenge, depth-5 instance the
circuit declares 4 public inputs — 1 packed-direction-bits element and 1
commitment element per challenge (5 in total with the constant `ONE` input,
as the source test asserts via `num_inputs() == 5`) — not the
`2 * (5 + 1) = 12` declared inputs that "exactly 5 public-input field
elements per challenge for the packed direction bits plus 1 commitment field
element per challenge" would require. -/
theorem porc_depth5_public_input_count_example :
    Except.map (fun s => s.inputs.length)
      (synthesize (fun _ _ => (0 : Fr)) (List.replicate 2 (some (0 : Fr)))
        (List.replicate 2 (some (0 : Fr)))
        (List.replicate 2 (List.replicate 5 (some ((0 : Fr), false))))) = .ok 4 ∧
    (4 : Nat) ≠ 2 * (5 + 1) := by
  exact ⟨by decide, by decide⟩

/-- C3 as amended: for two depth-5 paths and two challenges with an authentic
witness, the assembled circuit declares exactly 1 public-input field element
per challenge for the packed direction bits (packing that challenge's 5
direction bits) plus 1 commitment field element per challenge; together with
the constant `ONE` input this gives the documented 5 public inputs of the
2-challenge depth-5 instance, and the constraint system is satisfied.  (The
documented 13826 constraint total lives inside the external hash and
bit-decomposition gadgets, which are consumed as opaque collaborators.) -/
theorem porc_depth5_two_challenges (hash : Nat → List Bool → Fr)
    (l1 l2 c1 c2 : Fr) (p1 p2 : List (Fr × Bool))
    (hp1 : p1.length = 5) (hp2 : p2.length = 5)
    (hr1 : merkleAscend hash l1 p1 = c1) (hr2 : merkleAscend hash l2 p2 = c2) :
    ∃ s, synthesize hash [some l1, some l2] [some c1, some c2]
        [p1.map some, p2.map some] = .ok s ∧
      s.inputs = [packBits (p1.map Prod.snd), c1, packBits (p2.map Prod.snd), c2] ∧
      s.inputs.length + 1 = 5 ∧
      s.satisfied := by
  obtain ⟨aux1, cons1, hceq1, hcsat1⟩ := synthChallenge_full hash l1 c1 p1
  obtain ⟨aux2, cons2, hceq2, hcsat2⟩ := synthChallenge_full hash l2 c2 p2
  have hb1 : (p1.map Prod.snd).length = 5 := by simp [hp1]
  have hb2 : (p2.map Prod.snd).length = 5 := by simp [hp2]
  have hm1 : computeMultipacking (p1.map Prod.snd) = [packBits (p1.map Prod.snd)] :=
    computeMultipacking_single _ (List.length_pos.mp (by omega))
      (by rw [hb1]; norm_num [frCapacity])
  have hm2 : computeMultipacking (p2.map Prod.snd) = [packBits (p2.map Prod.snd)] :=
    computeMultipacking_single _ (List.length_pos.mp (by omega))
      (by rw [hb2]; norm_num [frCapacity])
  have hz : synthesize hash [some l1, some l2] [some c1, some c2]
      [p1.map some, p2.map some] =
      synthChallenges hash [(some l1, p1.map some, some c1),
        (some l2, p2.map some, some c2)] := rfl
  refine ⟨CSState.append
      ⟨c1 :: l1 :: aux1, computeMultipacking (p1.map Prod.snd) ++ [c1], cons1⟩
      (CSState.append
        ⟨c2 :: l2 :: aux2, computeMultipacking (p2.map Prod.snd) ++ [c2], cons2⟩
        ⟨[], [], []⟩), ?_, ?_, ?_, ?_⟩
  · rw [hz]
    simp only [synthChallenges]
    rw [hceq1, hceq2]
  · simp [CSState.append, hm1, hm2]
  · simp [CSState.append, hm1, hm2]
  · rw [CSState.satisfied_append, CSState.satisfied_append]
    refine ⟨hcsat1 hr1, hcsat2 hr2, ?_⟩
    intro t ht
    simp [CSState.satisfied] at ht

/-- Witness for the amended C3: two depth-5 all-zero paths under the
constant-zero hash, with matching zero commitments. -/
theorem porc_depth5_two_challenges_witness :
    ∃ s, synthesize (fun _ _ => (0 : Fr)) [some (0 : Fr), some (0 : Fr)]
        [some (0 : Fr), some (0 : Fr)]
        [(List.replicate 5 ((0 : Fr), false)).map some,
         (List.replicate 5 ((0 : Fr), false)).map some] = .ok s ∧
      s.inputs = [packBits ((List.replicate 5 ((0 : Fr), false)).map Prod.snd), 0,
        packBits ((List.replicate 5 ((0 : Fr), false)).map Prod.snd), 0] ∧
      s.inputs.length + 1 = 5 ∧
      s.satisfied :=
  porc_depth5_two_challenges (fun _ _ => (0 : Fr)) 0 0 0 0
    (List.replicate 5 ((0 : Fr), false)) (List.replicate 5 ((0 : Fr), false))
    (by decide) (by decide) (by decide) (by decide)

/-- With every path empty (depth 0), the challenge loop still allocates the
commitment and the leaf of every challenge, declares exactly the commitment
as public input, and emits exactly the equality and inputize constraints, so
it is satisfied exactly when every leaf equals its commitment. -/
theorem synthChallenges_depth_zero (hash : Nat → List Bool → Fr) :
    ∀ (lfs cms : List Fr), lfs.length = cms.length →
      ∃ s, synthChallenges hash
          ((lfs.map some).zip
            ((List.replicate lfs.length ([] : List (Option (Fr × Bool)))).zip
              (cms.map some))) = .ok s ∧
        s.aux = (cms.zip lfs).flatMap (fun p => [p.1, p.2]) ∧
        s.inputs = cms ∧
        s.constraints = (lfs.zip cms).flatMap (fun p => [(p.1, 1, p.2), (p.2, 1, p.2)]) ∧
        (s.satisfied ↔ lfs = cms) := by
  intro lfs
  induction lfs with
  | nil =>
    intro cms hlen
    have hcs : cms = [] := List.length_eq_zero.mp (by simpa using hlen.symm)
    subst hcs
    exact ⟨⟨[], [], []⟩, rfl, by simp, rfl, by simp, by simp [CSState.satisfied]⟩
  | cons l lfs ih =>
    intro cms hlen
    match cms with
    | c :: cms =>
      simp only [List.length_cons, Nat.succ.injEq] at hlen
      obtain ⟨t, hteq, htaux, htinp, htcons, htiff⟩ := ih cms hlen
      have hz : ((l :: lfs).map some).zip
          ((List.replicate (l :: lfs).length ([] : List (Option (Fr × Bool)))).zip
            ((c :: cms).map some)) =
          (some l, ([] : List (Option (Fr × Bool))), some c)
            :: (lfs.map some).zip
              ((List.replicate lfs.length ([] : List (Option (Fr × Bool)))).zip
                (cms.map some)) := rfl
      rw [hz]
      simp only [synthChallenges]
      have hc : synthChallenge hash (some l) [] (some c) =
          .ok ⟨[c, l], [c], [(l, 1, c), (c, 1, c)]⟩ := rfl
      rw [hc, hteq]
      refine ⟨_, rfl, ?_, ?_, ?_, ?_⟩
      · simp [CSState.append, htaux]
      · simp [CSState.append, htinp]
      · simp [CSState.append, htcons]
      · rw [CSState.satisfied_append]
        have hhead : (⟨[c, l], [c], [(l, 1, c), (c, 1, c)]⟩ : CSState).satisfied ↔ l = c := by
          constructor
          · intro h
            have := h (l, 1, c) (by simp)
            simpa using this
          · intro h u hu
            simp only [CSState.satisfied, List.mem_cons, List.not_mem_nil, or_false] at hu
            rcases hu with hu | hu <;> subst hu <;> simp [h]
        rw [hhead, htiff]
        simp only [List.cons.injEq]

/-- C8: for a depth-0 instance (every path empty), `synthesize` still
allocates the leaf and the commitment for each challenge (in the source's
commitment-then-leaf order) and enforces their equality, declaring the
commitment as the only public input of the challenge, so the system is
satisfied exactly when each challenged leaf equals its commitment. -/
theorem depth_zero_leaf_equals_commitment (hash : Nat → List Bool → Fr)
    (lfs cms : List Fr) (hlen : lfs.length = cms.length) :
    ∃ s, synthesize hash (lfs.map some) (cms.map some)
        (List.replicate lfs.length []) = .ok s ∧
      s.aux = (cms.zip lfs).flatMap (fun p => [p.1, p.2]) ∧
      s.inputs = cms ∧
      s.constraints = (lfs.zip cms).flatMap (fun p => [(p.1, 1, p.2), (p.2, 1, p.2)]) ∧
      (s.satisfied ↔ lfs = cms) := by
  have h := synthChallenges_depth_zero hash lfs cms hlen
  unfold synthesize
  rw [if_pos (by simp), if_pos (by simp [hlen])]
  exact h

/-- Witness for C8: one challenge, empty path, leaf equal to the
commitment. -/
theorem depth_zero_leaf_equals_commitment_witness :
    ∃ s, synthesize (fun _ _ => (0 : Fr)) ([(2 : Fr)].map some)
        ([(2 : Fr)].map some) (List.replicate [(2 : Fr)].length []) = .ok s ∧
      s.aux = (([(2 : Fr)].zip [(2 : Fr)]).flatMap (fun p => [p.1, p.2])) ∧
      s.inputs = [(2 : Fr)] ∧
      s.constraints = (([(2 : Fr)].zip [(2 : Fr)]).flatMap
        (fun p => [(p.1, 1, p.2), (p.2, 1, p.2)])) ∧
      (s.satisfied ↔ [(2 : Fr)] = [(2 : Fr)]) :=
  depth_zero_leaf_equals_commitment (fun _ _ => (0 : Fr)) [(2 : Fr)] [(2 : Fr)]
    (by decide)
